import Mathlib

/-!
Verification of the exchange-rate resolution and caching engine of the
valutatrade_hub repository: a shallow embedding of the Rate Store
(`storage.py`), Rate Aggregator (`updater.py`), Rate Resolver
(`core/models.py`, `Portfolio.get_rate`) and Freshness Gate
(`core/usecases.py`, `_check_and_refresh_rates`), together with theorems
settling the behavioural claims about them.

Conventions of the embedding:
* Python `dict[str, T]` values are modelled as association lists
  `List (String × T)` with unique keys, together with `dget` (dict `get`),
  `dinsert` (dict item assignment: replaces in place, otherwise appends)
  and `dupdate` (dict `update`).
* Python `float` rates are modelled as rationals `ℚ`.
* ISO-8601 timestamp strings are compared exactly as Python compares
  `str` values: lexicographically by code point, which is the order of
  the Mathlib `LinearOrder String` instance on the underlying character lists.
* Fallible code returns `Except`.
-/

namespace ValutaTrade

/-- Dict lookup: Python `d.get(k)` on an association list, first match wins. -/
def dget {α : Type} : List (String × α) → String → Option α
  | [], _ => none
  | (k, v) :: rest, key => if k = key then some v else dget rest key

/-- Dict item assignment: Python `d[k] = v`. Replaces the value in place when
the key is present, otherwise appends the new binding at the end. -/
def dinsert {α : Type} : List (String × α) → String → α → List (String × α)
  | [], key, v => [(key, v)]
  | (k, w) :: rest, key, v =>
      if k = key then (key, v) :: rest else (k, w) :: dinsert rest key v

/-- Dict update: Python `d.update(other)`, folding the bindings of `other`
into `d` in order. -/
def dupdate {α : Type} (d : List (String × α)) (other : List (String × α)) :
    List (String × α) :=
  other.foldl (fun acc kv => dinsert acc kv.1 kv.2) d

/-! ## Rate Store data model (`parser_service/storage.py`) -/

/-- Cache entry for one currency pair: the value stored at
`cache["pairs"][pair_key]` by `ExchangeRatesStorage._update_cache`. -/
structure CacheEntry where
  rate : ℚ
  updated_at : String
  source : String
deriving DecidableEq

/-- The cache file contents: `pairs` map and `last_refresh` timestamp
(`none` models a cache without the key, as on first run). -/
structure RatesCache where
  pairs : List (String × CacheEntry)
  last_refresh : Option String
deriving DecidableEq

/-- One history record, as built by `ExchangeRatesStorage._append_to_history`
(the `meta` field is a constant empty dict and is omitted). -/
structure HistRecord where
  id : String
  from_currency : String
  to_currency : String
  rate : ℚ
  timestamp : String
  source : String
deriving DecidableEq

/-- Python `pair_key.split("_", 1)` guarded by `"_" in pair_key`: split a
character list at the first underscore, `none` when there is none. -/
def splitOnUnderscore : List Char → Option (List Char × List Char)
  | [] => none
  | c :: rest =>
      if c = '_' then some ([], rest)
      else (splitOnUnderscore rest).map (fun p => (c :: p.1, p.2))

/-- The dedup identity key `f"{from_currency}_{to_currency}_{timestamp}"`. -/
def recordId (from_currency to_currency ts : String) : String :=
  from_currency ++ "_" ++ to_currency ++ "_" ++ ts

/-- One loop iteration of `_append_to_history`: skip a key without an
underscore, skip a record whose id is already present, else append. -/
def historyStep (source ts : String) (h : List HistRecord) (kv : String × ℚ) :
    List HistRecord :=
  match splitOnUnderscore kv.1.data with
  | none => h
  | some (f, t) =>
      let rid := recordId (String.mk f) (String.mk t) ts
      if h.any (fun r => r.id = rid) then h
      else h ++ [⟨rid, String.mk f, String.mk t, kv.2, ts, source⟩]

/-- `ExchangeRatesStorage._append_to_history`: fold the batch into the
history list, deduplicating by record id. -/
def append_to_history (rates : List (String × ℚ)) (source ts : String)
    (history : List HistRecord) : List HistRecord :=
  rates.foldl (historyStep source ts) history

/-- One loop iteration of `_update_cache`: overwrite the entry of the pair when
the incoming timestamp is at least the stored `updated_at` (an absent entry
yields the empty string, the lexicographically smallest value). -/
def cacheStep (source ts : String) (ps : List (String × CacheEntry))
    (kv : String × ℚ) : List (String × CacheEntry) :=
  let cur := (Option.map CacheEntry.updated_at (dget ps kv.1)).getD ""
  if cur ≤ ts then dinsert ps kv.1 ⟨kv.2, ts, source⟩ else ps

/-- `ExchangeRatesStorage._update_cache`: merge the batch into the pairs map
and set `last_refresh` to the batch timestamp unconditionally. -/
def update_cache (rates : List (String × ℚ)) (source ts : String)
    (cache : RatesCache) : RatesCache :=
  { pairs := rates.foldl (cacheStep source ts) cache.pairs
    last_refresh := some ts }

/-- The two persisted structures owned by `ExchangeRatesStorage`. -/
structure StorageState where
  history : List HistRecord
  cache : RatesCache
deriving DecidableEq

/-- `ExchangeRatesStorage.save_rates` with an explicit timestamp (the
callers verified here always pass one): history append then cache merge. -/
def save_rates (rates : List (String × ℚ)) (source ts : String)
    (st : StorageState) : StorageState :=
  { history := append_to_history rates source ts st.history
    cache := update_cache rates source ts st.cache }

/-- Stored `updated_at` of a pair key, the empty string when absent —
exactly `pairs.get(pair_key, {}).get("updated_at", "")`. -/
def uAt (ps : List (String × CacheEntry)) (k : String) : String :=
  (Option.map CacheEntry.updated_at (dget ps k)).getD ""

/-! ## Rate Aggregator (`parser_service/updater.py`) -/

/-- One configured API client, named by its class name; `fetch` is the
outcome of `fetch_rates()`: a batch of pair-key rates, or a raised
exception (`ApiRequestError` and any other exception are handled alike). -/
structure Client where
  name : String
  fetch : Except Unit (List (String × ℚ))

/-- Whether the `fetch_rates()` call of a client returns instead of raising. -/
def Client.succeeds (c : Client) : Bool :=
  match c.fetch with
  | Except.ok _ => true
  | Except.error _ => false

/-- The return value of `RatesUpdater.run_update`. -/
structure UpdateResult where
  total_rates : ℕ
  successful_sources : List String
  failed_sources : List String
  timestamp : String
deriving DecidableEq

/-- One loop iteration of `run_update`: on success fold the batch of the client
into `all_rates` (`all_rates.update(rates)`) and record the client as
successful; on an exception record it as failed and continue. -/
def updStep (acc : List (String × ℚ) × List String × List String) (c : Client) :
    List (String × ℚ) × List String × List String :=
  match c.fetch with
  | Except.ok b => (dupdate acc.1 b, acc.2.1 ++ [c.name], acc.2.2)
  | Except.error _ => (acc.1, acc.2.1, acc.2.2 ++ [c.name])

/-- The effect of one client on the merged batch `all_rates`. -/
def mergeStep (acc : List (String × ℚ)) (c : Client) : List (String × ℚ) :=
  match c.fetch with
  | Except.ok b => dupdate acc b
  | Except.error _ => acc

/-- The merged batch `all_rates` accumulated over the clients, starting
from `start`. -/
def mergeFrom (start : List (String × ℚ)) (clients : List Client) :
    List (String × ℚ) :=
  clients.foldl mergeStep start

/-- The merged batch of the rates of all successful clients. -/
def mergeBatches (clients : List Client) : List (String × ℚ) :=
  mergeFrom [] clients

/-- `RatesUpdater.run_update`: query every client, merging batches and
collecting outcomes; when the merged batch is empty return a zero result
without touching the storage, otherwise persist the merged batch through
`save_rates` with source label `"ParserService"`. The wall-clock timestamp
taken after the loop is the parameter `ts`. -/
def run_update (clients : List Client) (ts : String) (st : StorageState) :
    UpdateResult × StorageState :=
  let r := clients.foldl updStep ([], [], [])
  if r.1 = [] then
    (⟨0, r.2.1, r.2.2, ts⟩, st)
  else
    (⟨r.1.length, r.2.1, r.2.2, ts⟩, save_rates r.1 "ParserService" ts st)

/-! ## Rate Resolver (`core/models.py`, `Portfolio.get_rate`)

The resolver reads `Portfolio.EXCHANGE_RATES`, a dict mapping pair keys to
entry dicts; entries that are not dicts carrying a numeric `"rate"` behave
as misses or integrity errors, so the cache of the embedding maps pair keys to
`CacheEntry` values directly. The hub currency is the hard-coded `"USD"`
of the source. -/

/-- A `ValueError` raised by `Portfolio.get_rate`: a non-positive stored
rate, or an exhausted lookup. -/
inductive RateError
  | invalidRate (from_cur to_cur : String) (r : ℚ)
  | notFound (from_cur to_cur : String)
deriving DecidableEq

/-- `Portfolio.get_rate`: identity, direct lookup, inverse lookup, then
triangulation through USD; a `ValueError` from either triangulation leg is
swallowed and the original pair is reported as not found. -/
def get_rate (cache : List (String × CacheEntry)) (from_cur to_cur : String) :
    Except RateError ℚ :=
  if from_cur = to_cur then Except.ok 1
  else
    match dget cache (from_cur ++ "_" ++ to_cur) with
    | some entry =>
        if entry.rate ≤ 0 then
          Except.error (RateError.invalidRate from_cur to_cur entry.rate)
        else Except.ok entry.rate
    | none =>
        match dget cache (to_cur ++ "_" ++ from_cur) with
        | some entry =>
            if entry.rate ≤ 0 then
              Except.error (RateError.invalidRate to_cur from_cur entry.rate)
            else Except.ok (1 / entry.rate)
        | none =>
            if hc : from_cur ≠ "USD" ∧ to_cur ≠ "USD" then
              match get_rate cache from_cur "USD", get_rate cache "USD" to_cur with
              | Except.ok r1, Except.ok r2 => Except.ok (r1 * r2)
              | _, _ => Except.error (RateError.notFound from_cur to_cur)
            else Except.error (RateError.notFound from_cur to_cur)
termination_by
  (if from_cur = "USD" then 0 else 1) + (if to_cur = "USD" then 0 else 1)
decreasing_by
  · simp [hc.1, hc.2]
  · simp [hc.1, hc.2]

/-- The non-recursive part of the resolver: identity, direct and inverse
lookup only, everything else a not-found error. -/
def getRateNoTri (cache : List (String × CacheEntry)) (from_cur to_cur : String) :
    Except RateError ℚ :=
  if from_cur = to_cur then Except.ok 1
  else
    match dget cache (from_cur ++ "_" ++ to_cur) with
    | some entry =>
        if entry.rate ≤ 0 then
          Except.error (RateError.invalidRate from_cur to_cur entry.rate)
        else Except.ok entry.rate
    | none =>
        match dget cache (to_cur ++ "_" ++ from_cur) with
        | some entry =>
            if entry.rate ≤ 0 then
              Except.error (RateError.invalidRate to_cur from_cur entry.rate)
            else Except.ok (1 / entry.rate)
        | none => Except.error (RateError.notFound from_cur to_cur)

/-- The resolver with its recursion unrolled exactly once: the two
triangulation legs are resolved without any further triangulation. -/
def getRateOneHop (cache : List (String × CacheEntry)) (from_cur to_cur : String) :
    Except RateError ℚ :=
  if from_cur = to_cur then Except.ok 1
  else
    match dget cache (from_cur ++ "_" ++ to_cur) with
    | some entry =>
        if entry.rate ≤ 0 then
          Except.error (RateError.invalidRate from_cur to_cur entry.rate)
        else Except.ok entry.rate
    | none =>
        match dget cache (to_cur ++ "_" ++ from_cur) with
        | some entry =>
            if entry.rate ≤ 0 then
              Except.error (RateError.invalidRate to_cur from_cur entry.rate)
            else Except.ok (1 / entry.rate)
        | none =>
            if from_cur ≠ "USD" ∧ to_cur ≠ "USD" then
              match getRateNoTri cache from_cur "USD",
                    getRateNoTri cache "USD" to_cur with
              | Except.ok r1, Except.ok r2 => Except.ok (r1 * r2)
              | _, _ => Except.error (RateError.notFound from_cur to_cur)
            else Except.error (RateError.notFound from_cur to_cur)

/-! ## Freshness Gate (`core/usecases.py`, `_check_and_refresh_rates`) -/

/-- The rates file contents as `_db.load_rates()` returns them; an empty
dict on disk gives `pairs = []` and `last_refresh = none`. -/
structure RatesData where
  pairs : List (String × CacheEntry)
  last_refresh : Option String
deriving DecidableEq

/-- What `_check_and_refresh_rates` does: either invoke
`_refresh_rates_from_api` (a full aggregator run), or load the cached pairs
into `Portfolio.EXCHANGE_RATES` without any fetch or store write. -/
inductive GateAction
  | refresh
  | useCache (pairs : List (String × CacheEntry)) (last_refresh : String)
deriving DecidableEq

/-- `_check_and_refresh_rates`. `parseTs` models
`datetime.fromisoformat(s.replace("Z", "+00:00"))` followed by the age
computation against `now`: it yields the parsed instant in seconds, or
`none` when parsing raises `ValueError`/`AttributeError` (in particular on
the empty string). `ttl` is `_settings.rates_ttl`. -/
def check_and_refresh_rates (parseTs : String → Option ℚ) (ttl : ℚ)
    (d : RatesData) (now : ℚ) : GateAction :=
  if d.pairs = [] ∧ d.last_refresh = none then GateAction.refresh
  else
    match d.last_refresh with
    | none => GateAction.refresh
    | some s =>
        if s = "" then GateAction.refresh
        else
          match parseTs s with
          | none => GateAction.refresh
          | some t =>
              if ttl < now - t then GateAction.refresh
              else GateAction.useCache d.pairs s

/-! ## Derived vocabulary used by the theorems -/

/-- Replay a sequence of `save_rates` calls (each a batch, source and
timestamp) against a storage state. -/
def applyCalls (calls : List (List (String × ℚ) × String × String))
    (st : StorageState) : StorageState :=
  calls.foldl (fun acc a => save_rates a.1 a.2.1 a.2.2 acc) st

/-- Whether some history record carries the given dedup id — the
`any(record.get("id") == record_id ...)` membership test. -/
def anyId (h : List HistRecord) (rid : String) : Bool :=
  h.any (fun r => r.id = rid)

/-- Number of history records carrying the given dedup id. -/
def countId (h : List HistRecord) (rid : String) : ℕ :=
  (h.filter (fun r => r.id = rid)).length

/-- A concrete cache refuting the unrestricted reading of the
triangulation property: both legs EUR to USD and USD to EUR are quoted,
no EUR to EUR entry exists, yet the resolver answers the identity rate. -/
def cexCache : List (String × CacheEntry) :=
  [("EUR_USD", ⟨2, "", ""⟩), ("USD_EUR", ⟨3, "", ""⟩)]

/-! ## Theorems: association-list dictionary model -/

theorem dget_dinsert_self {α : Type} (d : List (String × α)) (k : String) (v : α) :
    dget (dinsert d k v) k = some v := by
  induction d with
  | nil => simp [dinsert, dget]
  | cons hd tl ih =>
      obtain ⟨k0, v0⟩ := hd
      by_cases h : k0 = k
      · simp [dinsert, h, dget]
      · simp [dinsert, h, dget, ih]

theorem dget_dinsert_ne {α : Type} (d : List (String × α)) (k k1 : String) (v : α)
    (h : k1 ≠ k) : dget (dinsert d k1 v) k = dget d k := by
  induction d with
  | nil => simp [dinsert, dget, h]
  | cons hd tl ih =>
      obtain ⟨k0, v0⟩ := hd
      by_cases h0 : k0 = k1
      · subst h0
        simp [dinsert, dget, h]
      · by_cases h1 : k0 = k
        · simp [dinsert, h0, dget, h1, Ne.symm h]
        · simp [dinsert, h0, dget, h1, ih]

theorem dinsert_ne_nil {α : Type} (d : List (String × α)) (k : String) (v : α) :
    dinsert d k v ≠ [] := by
  cases d with
  | nil => simp [dinsert]
  | cons hd tl =>
      obtain ⟨k0, v0⟩ := hd
      by_cases h : k0 = k <;> simp [dinsert, h]

theorem dupdate_ne_nil {α : Type} (d : List (String × α)) (other : List (String × α))
    (h : d ≠ [] ∨ other ≠ []) : dupdate d other ≠ [] := by
  induction other generalizing d with
  | nil =>
      rcases h with h | h
      · simpa [dupdate] using h
      · exact absurd rfl h
  | cons hd tl ih =>
      show dupdate (dinsert d hd.1 hd.2) tl ≠ []
      exact ih _ (Or.inl (dinsert_ne_nil d hd.1 hd.2))

/-! ## Theorems: Rate Resolver -/

/-- When either endpoint of a query is the hub currency USD — as in both
triangulation legs — the triangulation branch of the resolver is unreachable and
`get_rate` agrees with the lookup-only resolver. -/
theorem get_rate_hub_endpoint (cache : List (String × CacheEntry))
    (from_cur to_cur : String) (h : from_cur = "USD" ∨ to_cur = "USD") :
    get_rate cache from_cur to_cur = getRateNoTri cache from_cur to_cur := by
  have hc : ¬(from_cur ≠ "USD" ∧ to_cur ≠ "USD") := by
    rcases h with h | h <;> simp [h]
  rw [get_rate, getRateNoTri]
  by_cases hft : from_cur = to_cur
  · simp [hft]
  · simp only [hft, if_false]
    rcases hd : dget cache (from_cur ++ "_" ++ to_cur) with _ | e1
    · rcases hi : dget cache (to_cur ++ "_" ++ from_cur) with _ | e2
      · simp [hc]
      · simp
    · simp

/-- C9. Resolver identity: for every cache contents and every currency
code X, `get_rate(X, X)` returns 1 before any cache lookup happens. -/
theorem get_rate_identity (cache : List (String × CacheEntry)) (X : String) :
    get_rate cache X X = Except.ok 1 := by
  rw [get_rate]
  simp

/-- C8. Bounded triangulation: for every cache contents and every pair of
currency codes the resolver terminates and equals its one-hop unrolling
`getRateOneHop`, whose triangulation legs are resolved by the lookup-only
`getRateNoTri` — the recursive calls for the legs never enter the
triangulation branch, so the recursion depth is at most one hub hop. -/
theorem get_rate_one_hub_hop (cache : List (String × CacheEntry))
    (from_cur to_cur : String) :
    get_rate cache from_cur to_cur = getRateOneHop cache from_cur to_cur := by
  rw [get_rate, getRateOneHop]
  by_cases hft : from_cur = to_cur
  · simp [hft]
  · simp only [hft, if_false]
    rcases hd : dget cache (from_cur ++ "_" ++ to_cur) with _ | e1
    · rcases hi : dget cache (to_cur ++ "_" ++ from_cur) with _ | e2
      · by_cases hc : from_cur ≠ "USD" ∧ to_cur ≠ "USD"
        · rw [get_rate_hub_endpoint cache from_cur "USD" (Or.inr rfl),
              get_rate_hub_endpoint cache "USD" to_cur (Or.inl rfl)]
          simp [hc]
        · simp [hc]
      · simp
    · simp

/-- C6. Resolver inverse: when the pair A_B is cached with a positive rate
and no B_A entry exists, `get_rate(B, A)` returns the reciprocal of the
cached rate. -/
theorem resolver_inverse (cache : List (String × CacheEntry)) (A B : String)
    (e : CacheEntry)
    (hdir : dget cache (A ++ "_" ++ B) = some e)
    (hpos : 0 < e.rate)
    (hrev : dget cache (B ++ "_" ++ A) = none) :
    get_rate cache B A = Except.ok (1 / e.rate) := by
  have hBA : B ≠ A := by
    intro h
    subst h
    rw [hdir] at hrev
    cases hrev
  rw [get_rate]
  simp [hBA, hrev, hdir, not_le.mpr hpos]

/-- C6 witness: with EUR_USD cached at rate 2 and no USD_EUR entry, the
resolver answers the USD to EUR query with one half. -/
theorem resolver_inverse_app :
    get_rate [("EUR_USD", (⟨2, "", ""⟩ : CacheEntry))] "USD" "EUR"
      = Except.ok (1 / 2) :=
  resolver_inverse _ "EUR" "USD" ⟨2, "", ""⟩ (by decide) (by norm_num) (by decide)

/-- C2 counterexample: the claim quantifies over any codes A and B and does
not require A and B to differ. With A = B = EUR, hub USD, the cache
`cexCache` satisfies every stated hypothesis — EUR_USD has positive rate 2,
USD_EUR has positive rate 3, EUR differs from USD, and no EUR_EUR entry
exists in either direction — yet the resolver returns the identity rate 1
rather than the product 6. -/
theorem triangulation_claim_cex :
    dget cexCache ("EUR" ++ "_" ++ "USD") = some ⟨2, "", ""⟩
    ∧ dget cexCache ("USD" ++ "_" ++ "EUR") = some ⟨3, "", ""⟩
    ∧ (0 : ℚ) < 2 ∧ (0 : ℚ) < 3
    ∧ ("EUR" : String) ≠ "USD"
    ∧ dget cexCache ("EUR" ++ "_" ++ "EUR") = none
    ∧ get_rate cexCache "EUR" "EUR" ≠ Except.ok (2 * 3) := by
  refine ⟨by decide, by decide, by norm_num, by norm_num, by decide, by decide, ?_⟩
  rw [get_rate]
  simp
  norm_num

/-- C2 amended: triangulation correctness for two distinct non-hub codes.
When A and B differ, neither is the hub USD, both legs A_USD and USD_B are
cached with positive rates, and no direct or inverse A_B entry exists, the
resolver returns the product of the two leg rates. -/
theorem triangulation_correct (cache : List (String × CacheEntry))
    (A B : String) (e1 e2 : CacheEntry)
    (hAB : A ≠ B) (hA : A ≠ "USD") (hB : B ≠ "USD")
    (h1 : dget cache (A ++ "_" ++ "USD") = some e1) (hp1 : 0 < e1.rate)
    (h2 : dget cache ("USD" ++ "_" ++ B) = some e2) (hp2 : 0 < e2.rate)
    (hd : dget cache (A ++ "_" ++ B) = none)
    (hi : dget cache (B ++ "_" ++ A) = none) :
    get_rate cache A B = Except.ok (e1.rate * e2.rate) := by
  have leg1 : get_rate cache A "USD" = Except.ok e1.rate := by
    rw [get_rate]
    simp [hA, h1, not_le.mpr hp1]
  have leg2 : get_rate cache "USD" B = Except.ok e2.rate := by
    have hUB : "USD" ≠ B := fun h => hB h.symm
    have h2x : dget cache ("USD_" ++ B) = some e2 := by simpa using h2
    rw [get_rate]
    simp [hUB, h2x, not_le.mpr hp2]
  rw [get_rate]
  simp [hAB, hd, hi, hA, hB, leg1, leg2]

/-- C2 amended witness: EUR_USD at 2 and USD_JPY at 3 triangulate to an
EUR to JPY rate of 6. -/
theorem triangulation_correct_app :
    get_rate [("EUR_USD", (⟨2, "", ""⟩ : CacheEntry)),
              ("USD_JPY", (⟨3, "", ""⟩ : CacheEntry))] "EUR" "JPY"
      = Except.ok ((2 : ℚ) * 3) :=
  triangulation_correct _ "EUR" "JPY" ⟨2, "", ""⟩ ⟨3, "", ""⟩
    (by decide) (by decide) (by decide)
    (by decide) (by norm_num) (by decide) (by norm_num) (by decide) (by decide)

/-! ## Theorems: cache merge (`_update_cache`) -/

theorem cacheStep_eq (src ts : String) (ps : List (String × CacheEntry))
    (kv : String × ℚ) :
    cacheStep src ts ps kv
      = if uAt ps kv.1 ≤ ts then dinsert ps kv.1 ⟨kv.2, ts, src⟩ else ps := rfl

theorem dget_cacheStep_ne (src ts : String) (ps : List (String × CacheEntry))
    (kv : String × ℚ) (k : String) (hk : kv.1 ≠ k) :
    dget (cacheStep src ts ps kv) k = dget ps k := by
  rw [cacheStep_eq]
  by_cases hg : uAt ps kv.1 ≤ ts
  · rw [if_pos hg, dget_dinsert_ne _ _ _ _ hk]
  · rw [if_neg hg]

theorem uAt_cacheStep_mono (src ts : String) (ps : List (String × CacheEntry))
    (kv : String × ℚ) (k : String) :
    uAt ps k ≤ uAt (cacheStep src ts ps kv) k := by
  rw [cacheStep_eq]
  by_cases hg : uAt ps kv.1 ≤ ts
  · rw [if_pos hg]
    by_cases hk : kv.1 = k
    · subst hk
      unfold uAt
      rw [dget_dinsert_self]
      exact hg
    · unfold uAt
      rw [dget_dinsert_ne _ _ _ _ hk]
  · rw [if_neg hg]

theorem uAt_foldl_mono (src ts : String) (rates : List (String × ℚ))
    (ps : List (String × CacheEntry)) (k : String) :
    uAt ps k ≤ uAt (rates.foldl (cacheStep src ts) ps) k := by
  induction rates generalizing ps with
  | nil => exact le_refl _
  | cons kv rest ih =>
      exact le_trans (uAt_cacheStep_mono src ts ps kv k) (ih (cacheStep src ts ps kv))

theorem dget_foldl_older (src ts : String) (rates : List (String × ℚ))
    (ps : List (String × CacheEntry)) (k : String) (h : ts < uAt ps k) :
    dget (rates.foldl (cacheStep src ts) ps) k = dget ps k := by
  induction rates generalizing ps with
  | nil => rfl
  | cons kv rest ih =>
      have hstep : dget (cacheStep src ts ps kv) k = dget ps k := by
        by_cases hk : kv.1 = k
        · subst hk
          rw [cacheStep_eq, if_neg (not_le.mpr h)]
        · exact dget_cacheStep_ne src ts ps kv k hk
      have h2 : ts < uAt (cacheStep src ts ps kv) k := by
        unfold uAt
        rw [hstep]
        exact h
      rw [List.foldl_cons, ih _ h2, hstep]

theorem dget_foldl_not_mem (src ts : String) (rates : List (String × ℚ))
    (ps : List (String × CacheEntry)) (k : String)
    (h : ∀ kv ∈ rates, kv.1 ≠ k) :
    dget (rates.foldl (cacheStep src ts) ps) k = dget ps k := by
  induction rates generalizing ps with
  | nil => rfl
  | cons kv rest ih =>
      rw [List.foldl_cons,
          ih _ (fun r hr => h r (List.mem_cons_of_mem _ hr)),
          dget_cacheStep_ne src ts ps kv k (h kv (List.mem_cons_self _ _))]

theorem dget_foldl_overwrite (src ts : String) (rates : List (String × ℚ))
    (ps : List (String × CacheEntry)) (k : String) (r : ℚ)
    (hnd : (rates.map Prod.fst).Nodup) (hmem : (k, r) ∈ rates)
    (hle : uAt ps k ≤ ts) :
    dget (rates.foldl (cacheStep src ts) ps) k = some ⟨r, ts, src⟩ := by
  induction rates generalizing ps with
  | nil => cases hmem
  | cons kv rest ih =>
      rw [List.map_cons, List.nodup_cons] at hnd
      rcases List.mem_cons.mp hmem with heq | hmem2
      · have hk1 : kv.1 = k := by rw [← heq]
        have hstep : dget (cacheStep src ts ps kv) k = some ⟨kv.2, ts, src⟩ := by
          rw [cacheStep_eq, hk1, if_pos hle, dget_dinsert_self]
        have hrest : ∀ x ∈ rest, x.1 ≠ k := by
          intro x hx hxk
          exact hnd.1 (hk1 ▸ hxk ▸ List.mem_map_of_mem Prod.fst hx)
        rw [List.foldl_cons, dget_foldl_not_mem src ts rest _ k hrest, hstep, ← heq]
      · have hk1 : kv.1 ≠ k := by
          intro hxk
          exact hnd.1 (hxk ▸ List.mem_map_of_mem Prod.fst hmem2)
        have hle2 : uAt (cacheStep src ts ps kv) k ≤ ts := by
          unfold uAt
          rw [dget_cacheStep_ne src ts ps kv k hk1]
          exact hle
        rw [List.foldl_cons, ih _ hnd.2 hmem2 hle2]

theorem uAt_applyCalls_mono (calls : List (List (String × ℚ) × String × String))
    (st : StorageState) (k : String) :
    uAt st.cache.pairs k ≤ uAt (applyCalls calls st).cache.pairs k := by
  induction calls generalizing st with
  | nil => exact le_refl _
  | cons a rest ih =>
      refine le_trans ?_ (ih (save_rates a.1 a.2.1 a.2.2 st))
      exact uAt_foldl_mono a.2.1 a.2.2 a.1 st.cache.pairs k

/-- C1. Cache merge is timestamp-monotone. For every pair key: over any
sequence of `save_rates` calls the stored `updated_at` never decreases
(an absent entry reads as the empty string, the smallest timestamp); a
single merge whose timestamp is strictly older than the stored
`updated_at` leaves the entry of the pair — rate, `updated_at` and source —
unchanged; and a merge whose batch contains the pair with a timestamp at
least the stored `updated_at` overwrites the entry with the rate,
timestamp and source. -/
theorem cache_merge_timestamp_monotone (k : String) :
    (∀ calls st, uAt st.cache.pairs k ≤ uAt (applyCalls calls st).cache.pairs k)
    ∧ (∀ (rates : List (String × ℚ)) src ts c, ts < uAt c.pairs k →
        dget (update_cache rates src ts c).pairs k = dget c.pairs k)
    ∧ (∀ (rates : List (String × ℚ)) src ts c (r : ℚ),
        (rates.map Prod.fst).Nodup → (k, r) ∈ rates → uAt c.pairs k ≤ ts →
        dget (update_cache rates src ts c).pairs k = some ⟨r, ts, src⟩)
    ∧ (∀ (rates : List (String × ℚ)) src ts st,
        (save_rates rates src ts st).cache = update_cache rates src ts st.cache) := by
  refine ⟨fun calls st => uAt_applyCalls_mono calls st k, ?_, ?_, fun _ _ _ _ => rfl⟩
  · intro rates src ts c h
    exact dget_foldl_older src ts rates c.pairs k h
  · intro rates src ts c r hnd hmem hle
    exact dget_foldl_overwrite src ts rates c.pairs k r hnd hmem hle

/-- C1 witness: a batch stamped 2024 overwrites an entry stamped 2023, and
a batch stamped 2022 leaves it alone. -/
theorem cache_merge_timestamp_monotone_app :
    dget (update_cache [("EUR_USD", (5 : ℚ))] "s2" "2024"
        ⟨[("EUR_USD", ⟨2, "2023", "s1"⟩)], none⟩).pairs "EUR_USD"
      = some ⟨5, "2024", "s2"⟩
    ∧ dget (update_cache [("EUR_USD", (5 : ℚ))] "s2" "2022"
        ⟨[("EUR_USD", ⟨2, "2023", "s1"⟩)], none⟩).pairs "EUR_USD"
      = some ⟨2, "2023", "s1"⟩ := by
  constructor
  · refine (cache_merge_timestamp_monotone "EUR_USD").2.2.1
      [("EUR_USD", (5 : ℚ))] "s2" "2024" ⟨[("EUR_USD", ⟨2, "2023", "s1"⟩)], none⟩ 5
      (by decide) (by decide) ?_
    show ("2023" : String) ≤ "2024"
    rw [String.le_iff_toList_le]
    decide
  · rw [(cache_merge_timestamp_monotone "EUR_USD").2.1
      [("EUR_USD", (5 : ℚ))] "s2" "2022" ⟨[("EUR_USD", ⟨2, "2023", "s1"⟩)], none⟩ ?_]
    · decide
    · show ("2022" : String) < "2023"
      rw [String.lt_iff_toList_lt]
      decide

/-! ## Theorems: history append (`_append_to_history`) -/

theorem historyStep_none (src ts : String) (h : List HistRecord) (kv : String × ℚ)
    (hs : splitOnUnderscore kv.1.data = none) :
    historyStep src ts h kv = h := by
  unfold historyStep
  rw [hs]

theorem historyStep_dup (src ts : String) (h : List HistRecord) (kv : String × ℚ)
    (f t : List Char) (hs : splitOnUnderscore kv.1.data = some (f, t))
    (hany : h.any (fun r => r.id = recordId (String.mk f) (String.mk t) ts) = true) :
    historyStep src ts h kv = h := by
  unfold historyStep
  rw [hs]
  simp only [hany, if_true]

theorem historyStep_new (src ts : String) (h : List HistRecord) (kv : String × ℚ)
    (f t : List Char) (hs : splitOnUnderscore kv.1.data = some (f, t))
    (hany : ¬ (h.any (fun r => r.id = recordId (String.mk f) (String.mk t) ts) = true)) :
    historyStep src ts h kv
      = h ++ [⟨recordId (String.mk f) (String.mk t) ts,
              String.mk f, String.mk t, kv.2, ts, src⟩] := by
  unfold historyStep
  rw [hs]
  simp [hany]

theorem anyId_historyStep_mono (src ts : String) (h : List HistRecord)
    (kv : String × ℚ) (rid : String) (ha : anyId h rid = true) :
    anyId (historyStep src ts h kv) rid = true := by
  rcases hs : splitOnUnderscore kv.1.data with _ | ⟨f, t⟩
  · rw [historyStep_none src ts h kv hs]
    exact ha
  · by_cases hany : h.any (fun r => r.id = recordId (String.mk f) (String.mk t) ts) = true
    · rw [historyStep_dup src ts h kv f t hs hany]
      exact ha
    · rw [historyStep_new src ts h kv f t hs hany]
      unfold anyId at ha ⊢
      rw [List.any_append, ha, Bool.true_or]

theorem anyId_append_mono (src ts : String) (rates : List (String × ℚ))
    (h : List HistRecord) (rid : String) (ha : anyId h rid = true) :
    anyId (append_to_history rates src ts h) rid = true := by
  induction rates generalizing h with
  | nil => exact ha
  | cons kv rest ih =>
      exact ih (historyStep src ts h kv) (anyId_historyStep_mono src ts h kv rid ha)

theorem anyId_historyStep_cov (src ts : String) (h : List HistRecord)
    (kv : String × ℚ) (f t : List Char)
    (hs : splitOnUnderscore kv.1.data = some (f, t)) :
    anyId (historyStep src ts h kv) (recordId (String.mk f) (String.mk t) ts)
      = true := by
  by_cases hany : h.any (fun r => r.id = recordId (String.mk f) (String.mk t) ts) = true
  · rw [historyStep_dup src ts h kv f t hs hany]
    exact hany
  · rw [historyStep_new src ts h kv f t hs hany]
    unfold anyId
    rw [List.any_append]
    simp

theorem anyId_append_cov (src ts : String) (rates : List (String × ℚ))
    (h : List HistRecord) (k : String) (r : ℚ) (f t : List Char)
    (hmem : (k, r) ∈ rates) (hs : splitOnUnderscore k.data = some (f, t)) :
    anyId (append_to_history rates src ts h)
      (recordId (String.mk f) (String.mk t) ts) = true := by
  induction rates generalizing h with
  | nil => cases hmem
  | cons kv rest ih =>
      rcases List.mem_cons.mp hmem with heq | hmem2
      · have hs1 : splitOnUnderscore kv.1.data = some (f, t) := by rw [← heq]; exact hs
        exact anyId_append_mono src ts rest (historyStep src ts h kv) _
          (anyId_historyStep_cov src ts h kv f t hs1)
      · exact ih (historyStep src ts h kv) hmem2

theorem append_to_history_noop (src ts : String) (rates : List (String × ℚ))
    (h : List HistRecord)
    (hcov : ∀ kv ∈ rates, ∀ f t, splitOnUnderscore (Prod.fst kv).data = some (f, t) →
        anyId h (recordId (String.mk f) (String.mk t) ts) = true) :
    append_to_history rates src ts h = h := by
  induction rates with
  | nil => rfl
  | cons kv rest ih =>
      have hstep : historyStep src ts h kv = h := by
        rcases hs : splitOnUnderscore kv.1.data with _ | ⟨f, t⟩
        · exact historyStep_none src ts h kv hs
        · exact historyStep_dup src ts h kv f t hs
            (hcov kv (List.mem_cons_self _ _) f t hs)
      show (rest.foldl (historyStep src ts) (historyStep src ts h kv)) = h
      rw [hstep]
      exact ih (fun x hx => hcov x (List.mem_cons_of_mem _ hx))

theorem anyId_iff_countId_pos (h : List HistRecord) (rid : String) :
    anyId h rid = true ↔ 0 < countId h rid := by
  induction h with
  | nil => simp [anyId, countId]
  | cons r rest ih =>
      by_cases hr : r.id = rid
      · simp [anyId, countId, List.filter_cons, hr]
      · simp only [anyId, List.any_cons] at ih ⊢
        simp only [countId, List.filter_cons] at ih ⊢
        simp [hr, ih]

theorem countId_historyStep_le_one (src ts : String) (h : List HistRecord)
    (kv : String × ℚ) (rid : String) (hle : countId h rid ≤ 1) :
    countId (historyStep src ts h kv) rid ≤ 1 := by
  rcases hs : splitOnUnderscore kv.1.data with _ | ⟨f, t⟩
  · rw [historyStep_none src ts h kv hs]
    exact hle
  · by_cases hany : h.any (fun r => r.id = recordId (String.mk f) (String.mk t) ts) = true
    · rw [historyStep_dup src ts h kv f t hs hany]
      exact hle
    · rw [historyStep_new src ts h kv f t hs hany]
      by_cases hrid : recordId (String.mk f) (String.mk t) ts = rid
      · have hzero : countId h rid = 0 := by
          by_contra hz
          exact hany (hrid ▸ (anyId_iff_countId_pos h rid).mpr (Nat.pos_of_ne_zero hz))
        unfold countId at hzero ⊢
        rw [List.filter_append, List.length_append, hzero]
        simp [hrid]
      · unfold countId at hle ⊢
        rw [List.filter_append, List.length_append]
        simp only [List.filter_cons, List.filter_nil]
        simp [hrid, hle]

theorem countId_append_le_one (src ts : String) (rates : List (String × ℚ))
    (h : List HistRecord) (rid : String) (hle : countId h rid ≤ 1) :
    countId (append_to_history rates src ts h) rid ≤ 1 := by
  induction rates generalizing h with
  | nil => exact hle
  | cons kv rest ih =>
      exact ih (historyStep src ts h kv)
        (countId_historyStep_le_one src ts h kv rid hle)

/-- C7. History idempotence: re-submitting a batch with the same timestamp
leaves the history exactly as after the first submission (whatever the
starting history), and a quote whose dedup id is not yet present ends up
with exactly one history record even after the duplicate submission. -/
theorem history_append_idempotent (rates : List (String × ℚ)) (src ts : String)
    (h : List HistRecord) :
    append_to_history rates src ts (append_to_history rates src ts h)
        = append_to_history rates src ts h
    ∧ (∀ (k : String) (r : ℚ) (f t : List Char),
        (k, r) ∈ rates → splitOnUnderscore k.data = some (f, t) →
        countId h (recordId (String.mk f) (String.mk t) ts) = 0 →
        countId (append_to_history rates src ts (append_to_history rates src ts h))
            (recordId (String.mk f) (String.mk t) ts) = 1) := by
  have hidem : append_to_history rates src ts (append_to_history rates src ts h)
      = append_to_history rates src ts h := by
    apply append_to_history_noop
    intro kv hkv f t hs
    exact anyId_append_cov src ts rates h kv.1 kv.2 f t hkv hs
  refine ⟨hidem, ?_⟩
  intro k r f t hmem hs hzero
  rw [hidem]
  have hpos : 0 < countId (append_to_history rates src ts h)
      (recordId (String.mk f) (String.mk t) ts) :=
    (anyId_iff_countId_pos _ _).mp (anyId_append_cov src ts rates h k r f t hmem hs)
  have hle : countId (append_to_history rates src ts h)
      (recordId (String.mk f) (String.mk t) ts) ≤ 1 :=
    countId_append_le_one src ts rates h _ (by rw [hzero]; exact Nat.zero_le 1)
  exact Nat.le_antisymm hle hpos

/-- C7 witness: submitting the single quote EUR_USD at one timestamp twice
against an empty history leaves exactly one record. -/
theorem history_append_idempotent_app :
    countId (append_to_history [("EUR_USD", (2 : ℚ))] "api" "T0"
        (append_to_history [("EUR_USD", (2 : ℚ))] "api" "T0" []))
      (recordId (String.mk ['E', 'U', 'R']) (String.mk ['U', 'S', 'D']) "T0") = 1 :=
  (history_append_idempotent [("EUR_USD", (2 : ℚ))] "api" "T0" []).2
    "EUR_USD" 2 ['E', 'U', 'R'] ['U', 'S', 'D']
    (by decide) (by decide) (by decide)

/-- C10. Malformed pair-key asymmetry: a batch key without an underscore
produces no history record at all, yet is still merged into the
pairs map as a regular entry (here: when its timestamp is not older than
any stored entry under that key). -/
theorem malformed_key_asymmetry (k : String) (r : ℚ) (src ts : String)
    (h : List HistRecord) (c : RatesCache)
    (hk : ¬ '_' ∈ k.data) (hts : uAt c.pairs k ≤ ts) :
    append_to_history [(k, r)] src ts h = h
    ∧ dget (update_cache [(k, r)] src ts c).pairs k = some ⟨r, ts, src⟩ := by
  have hsplit : ∀ l : List Char, ¬ '_' ∈ l → splitOnUnderscore l = none := by
    intro l
    induction l with
    | nil => intro _; rfl
    | cons ch rest ih =>
        intro hmem
        unfold splitOnUnderscore
        have hch : ¬ ch = '_' := fun he => hmem (he ▸ List.mem_cons_self _ _)
        rw [if_neg hch, ih (fun hm => hmem (List.mem_cons_of_mem _ hm))]
        rfl
  constructor
  · exact historyStep_none src ts h (k, r) (hsplit k.data hk)
  · show dget (cacheStep src ts c.pairs (k, r)) k = some ⟨r, ts, src⟩
    rw [cacheStep_eq]
    rw [if_pos hts]
    exact dget_dinsert_self c.pairs k ⟨r, ts, src⟩

/-- C10 witness: the underscore-free key EURUSD is skipped by the history
append but lands in the cache pairs map. -/
theorem malformed_key_asymmetry_app :
    append_to_history [("EURUSD", (2 : ℚ))] "api" "T0" [] = []
    ∧ dget (update_cache [("EURUSD", (2 : ℚ))] "api" "T0"
        ⟨[], none⟩).pairs "EURUSD" = some ⟨2, "T0", "api"⟩ :=
  malformed_key_asymmetry "EURUSD" 2 "api" "T0" [] ⟨[], none⟩
    (by decide)
    (by show ("" : String) ≤ "T0"
        rw [String.le_iff_toList_le]
        decide)

/-! ## Theorems: Rate Aggregator (`run_update`) -/

theorem updStep_eq (acc : List (String × ℚ) × List String × List String)
    (c : Client) :
    updStep acc c
      = (mergeStep acc.1 c,
         acc.2.1 ++ (if c.succeeds then [c.name] else []),
         acc.2.2 ++ (if c.succeeds then [] else [c.name])) := by
  unfold updStep mergeStep Client.succeeds
  rcases hf : c.fetch with e | b <;> simp

theorem mergeFrom_cons (m : List (String × ℚ)) (c : Client) (rest : List Client) :
    mergeFrom m (c :: rest) = mergeFrom (mergeStep m c) rest := rfl

theorem foldl_updStep (clients : List Client) (m : List (String × ℚ))
    (s f : List String) :
    clients.foldl updStep (m, s, f)
      = (mergeFrom m clients,
         s ++ (clients.filter Client.succeeds).map Client.name,
         f ++ (clients.filter (fun c => ! c.succeeds)).map Client.name) := by
  induction clients generalizing m s f with
  | nil => simp [mergeFrom]
  | cons c rest ih =>
      rw [List.foldl_cons, updStep_eq, ih, mergeFrom_cons]
      by_cases hs : c.succeeds = true
      · simp [List.filter_cons, hs, List.append_assoc]
      · simp [List.filter_cons, hs, List.append_assoc]

theorem mergeFrom_ne_nil (clients : List Client) (m : List (String × ℚ))
    (hm : m ≠ []) : mergeFrom m clients ≠ [] := by
  induction clients generalizing m with
  | nil => exact hm
  | cons c rest ih =>
      rw [mergeFrom_cons]
      apply ih
      rcases hf : c.fetch with e | b
      · unfold mergeStep
        rw [hf]
        exact hm
      · unfold mergeStep
        rw [hf]
        exact dupdate_ne_nil m b (Or.inl hm)

theorem mergeFrom_ne_nil_of_ok (clients : List Client) (m : List (String × ℚ))
    (hex : ∃ c ∈ clients, ∃ b, c.fetch = Except.ok b ∧ b ≠ []) :
    mergeFrom m clients ≠ [] := by
  induction clients generalizing m with
  | nil =>
      obtain ⟨c, hc, _⟩ := hex
      cases hc
  | cons c rest ih =>
      rw [mergeFrom_cons]
      obtain ⟨c0, hc0, b, hb, hbne⟩ := hex
      rcases List.mem_cons.mp hc0 with heq | hmem
      · subst heq
        apply mergeFrom_ne_nil
        unfold mergeStep
        rw [hb]
        exact dupdate_ne_nil m b (Or.inr hbne)
      · exact ih _ ⟨c0, hmem, b, hb, hbne⟩

theorem mergeFrom_all_empty (clients : List Client) (m : List (String × ℚ))
    (hall : ∀ c ∈ clients, c.fetch = Except.error () ∨ c.fetch = Except.ok []) :
    mergeFrom m clients = m := by
  induction clients generalizing m with
  | nil => rfl
  | cons c rest ih =>
      rw [mergeFrom_cons]
      have hstep : mergeStep m c = m := by
        rcases hall c (List.mem_cons_self _ _) with hf | hf <;>
          unfold mergeStep <;> rw [hf] <;> rfl
      rw [hstep]
      exact ih m (fun x hx => hall x (List.mem_cons_of_mem _ hx))

/-- C3. Partial failure tolerance: as soon as one client returns a
non-empty batch, `run_update` reports a positive `total_rates` (the size of
the merged batch), lists exactly the returning clients as successful and
exactly the raising clients as failed in configuration order, and persists
exactly the merged batch of successful client rates through
`save_rates`; in particular no single client failure aborts the others. -/
theorem run_update_tolerates_failures (clients : List Client) (ts : String)
    (st : StorageState)
    (hex : ∃ c ∈ clients, ∃ b, c.fetch = Except.ok b ∧ b ≠ []) :
    0 < (run_update clients ts st).1.total_rates
    ∧ (run_update clients ts st).1.total_rates = (mergeBatches clients).length
    ∧ (run_update clients ts st).1.successful_sources
        = (clients.filter Client.succeeds).map Client.name
    ∧ (run_update clients ts st).1.failed_sources
        = (clients.filter (fun c => ! c.succeeds)).map Client.name
    ∧ (run_update clients ts st).2
        = save_rates (mergeBatches clients) "ParserService" ts st := by
  have hne : mergeFrom [] clients ≠ [] := mergeFrom_ne_nil_of_ok clients [] hex
  unfold run_update
  rw [foldl_updStep]
  simp only [List.nil_append]
  rw [if_neg hne]
  exact ⟨List.length_pos.mpr hne, rfl, rfl, rfl, rfl⟩

/-- C3 witness: with client A raising and client B returning one rate,
`run_update` reports one rate, A failed, B successful, and writes the
batch. -/
theorem run_update_tolerates_failures_app :
    0 < (run_update [⟨"A", Except.error ()⟩, ⟨"B", Except.ok [("EUR_USD", 2)]⟩]
          "T0" ⟨[], ⟨[], none⟩⟩).1.total_rates
    ∧ (run_update [⟨"A", Except.error ()⟩, ⟨"B", Except.ok [("EUR_USD", 2)]⟩]
          "T0" ⟨[], ⟨[], none⟩⟩).1.failed_sources
        = ([⟨"A", Except.error ()⟩, (⟨"B", Except.ok [("EUR_USD", 2)]⟩ : Client)].filter
            (fun c => ! c.succeeds)).map Client.name :=
  ⟨(run_update_tolerates_failures _ "T0" ⟨[], ⟨[], none⟩⟩
      ⟨⟨"B", Except.ok [("EUR_USD", 2)]⟩,
       List.mem_cons_of_mem _ (List.mem_cons_self _ _),
       [("EUR_USD", 2)], rfl, by simp⟩).1,
   (run_update_tolerates_failures _ "T0" ⟨[], ⟨[], none⟩⟩
      ⟨⟨"B", Except.ok [("EUR_USD", 2)]⟩,
       List.mem_cons_of_mem _ (List.mem_cons_self _ _),
       [("EUR_USD", 2)], rfl, by simp⟩).2.2.2.1⟩

/-- C5. Zero-rate atomicity: when every client raises or returns an empty
batch, `run_update` reports zero total rates together with the outcome
lists, and the storage state — history file and cache file including
`last_refresh` — is returned untouched. -/
theorem run_update_zero_is_atomic (clients : List Client) (ts : String)
    (st : StorageState)
    (hall : ∀ c ∈ clients, c.fetch = Except.error () ∨ c.fetch = Except.ok []) :
    (run_update clients ts st).1.total_rates = 0
    ∧ (run_update clients ts st).1.successful_sources
        = (clients.filter Client.succeeds).map Client.name
    ∧ (run_update clients ts st).1.failed_sources
        = (clients.filter (fun c => ! c.succeeds)).map Client.name
    ∧ (run_update clients ts st).2 = st := by
  have hmerge : mergeFrom [] clients = [] := mergeFrom_all_empty clients [] hall
  unfold run_update
  rw [foldl_updStep]
  simp only [List.nil_append]
  rw [if_pos hmerge]
  exact ⟨rfl, rfl, rfl, rfl⟩

/-- C5 witness: one raising client and one client returning an empty batch
produce a zero-rate result and leave a non-trivial storage state intact. -/
theorem run_update_zero_is_atomic_app :
    (run_update [⟨"A", Except.error ()⟩, ⟨"B", Except.ok []⟩] "T9"
        ⟨[], ⟨[("EUR_USD", ⟨2, "T0", "s"⟩)], some "T0"⟩⟩).1.total_rates = 0
    ∧ (run_update [⟨"A", Except.error ()⟩, ⟨"B", Except.ok []⟩] "T9"
        ⟨[], ⟨[("EUR_USD", ⟨2, "T0", "s"⟩)], some "T0"⟩⟩).2
      = ⟨[], ⟨[("EUR_USD", ⟨2, "T0", "s"⟩)], some "T0"⟩⟩ :=
  ⟨(run_update_zero_is_atomic _ "T9" _
      (by intro c hc
          rcases List.mem_cons.mp hc with h | h
          · subst h; exact Or.inl rfl
          · rcases List.mem_cons.mp h with h2 | h2
            · subst h2; exact Or.inr rfl
            · cases h2)).1,
   (run_update_zero_is_atomic _ "T9" _
      (by intro c hc
          rcases List.mem_cons.mp hc with h | h
          · subst h; exact Or.inl rfl
          · rcases List.mem_cons.mp h with h2 | h2
            · subst h2; exact Or.inr rfl
            · cases h2)).2.2.2⟩

/-! ## Theorems: Freshness Gate -/

/-- C4. Freshness gate trigger condition: the gate invokes a full
aggregator refresh exactly when the cached `last_refresh` is absent,
unparsable (the empty string included, since parsing it raises), or older
than the TTL; when it is present, parsable and within the TTL the gate
performs no refresh — no client fetch and no store write — and only loads
the cached pairs for the resolver. -/
theorem freshness_gate_trigger_iff (parseTs : String → Option ℚ) (ttl : ℚ)
    (d : RatesData) (now : ℚ) (hparse : parseTs "" = none) :
    (check_and_refresh_rates parseTs ttl d now = GateAction.refresh ↔
      d.last_refresh = none
      ∨ (∃ s, d.last_refresh = some s ∧ parseTs s = none)
      ∨ (∃ s t, d.last_refresh = some s ∧ parseTs s = some t ∧ ttl < now - t))
    ∧ (∀ s t, d.last_refresh = some s → parseTs s = some t → now - t ≤ ttl →
        check_and_refresh_rates parseTs ttl d now = GateAction.useCache d.pairs s) := by
  constructor
  · rcases hlr : d.last_refresh with _ | s
    · simp [check_and_refresh_rates, hlr]
    · by_cases hse : s = ""
      · subst hse
        simp [check_and_refresh_rates, hlr, hparse]
      · rcases hp : parseTs s with _ | t
        · simp [check_and_refresh_rates, hlr, hse, hp]
        · by_cases hage : ttl < now - t <;>
            simp [check_and_refresh_rates, hlr, hse, hp, hage]
  · intro s t hs hp hage
    have hse : s ≠ "" := by
      intro he
      rw [he, hparse] at hp
      cases hp
    simp [check_and_refresh_rates, hs, hse, hp, not_lt.mpr hage]

/-- C4 witness: a cache whose `last_refresh` parses to an instant within
the TTL makes the gate load the cached pairs instead of refreshing. -/
theorem freshness_gate_trigger_iff_app :
    check_and_refresh_rates (fun s => if s = "T1" then some 100 else none) 3600
        ⟨[("EUR_USD", ⟨2, "T1", "s"⟩)], some "T1"⟩ 1900
      = GateAction.useCache [("EUR_USD", ⟨2, "T1", "s"⟩)] "T1" :=
  (freshness_gate_trigger_iff (fun s => if s = "T1" then some 100 else none)
      3600 ⟨[("EUR_USD", ⟨2, "T1", "s"⟩)], some "T1"⟩ 1900 (by decide)).2
    "T1" 100 rfl (by simp) (by norm_num)

end ValutaTrade
